import Mathlib

/-!
Verification of the matching/scoring engine of the research-name generator.

The source is a TypeScript module.  Strings are modelled as `List Char`,
JavaScript numbers appearing in scores as `ℚ` (all score arithmetic in the
source stays on exact decimal fractions apart from the divisions, which are
exact in `ℚ`), and array indices as `ℕ`.  `Set<string>` values are modelled
by the underlying list of members, `null` results by `Option`.
-/

-- The rational operations of the standard library are `@[irreducible]`; the
-- witness theorems below evaluate scores by kernel reduction, so restore
-- reducibility locally.
attribute [local semireducible] Rat.add Rat.mul Rat.sub Rat.inv

/-- The test `/[a-z]/i.test(c)` (equivalently the regex class `[a-zA-Z]`). -/
def isAsciiLetter (c : Char) : Bool :=
  ('a' ≤ c && c ≤ 'z') || ('A' ≤ c && c ≤ 'Z')

/-- `String.prototype.toLowerCase` restricted to the ASCII range (the only
range the engine distinguishes: non-letters are never compared after
lowercasing letters in both operands). -/
def asciiLower (c : Char) : Char :=
  if 'A' ≤ c && c ≤ 'Z' then Char.ofNat (c.toNat + 32) else c

/-- `Math.round`: round half toward positive infinity. -/
def jsRound (q : ℚ) : ℤ :=
  (q + 1 / 2).floor

/-- `Math.round(x * 100) / 100`: round to two decimal places. -/
def round2 (q : ℚ) : ℚ :=
  ((jsRound (q * 100) : ℤ) : ℚ) / 100

/-- Lexicographic comparison on words; models `a.localeCompare(b) ≤ 0` on the
all-lowercase ASCII words the engine sorts. -/
def lexLE : List Char → List Char → Bool
  | [], _ => true
  | _ :: _, [] => false
  | a :: as, b :: bs => if a = b then lexLE as bs else decide (a < b)

/-- `String.prototype.includes`: substring containment. -/
def isSubstrOf (sub l : List Char) : Bool :=
  l.tails.any fun t => sub.isPrefixOf t

/-- Whitespace for `String.prototype.trim`. -/
def isJsWhitespace (c : Char) : Bool :=
  c = ' ' || c = '\t' || c = '\n' || c = '\r'

/-- `String.prototype.trim`. -/
def jsTrim (s : List Char) : List Char :=
  ((s.dropWhile isJsWhitespace).reverse.dropWhile isJsWhitespace).reverse

/-- The prefix-comparison loop in `calculateNiceness` (count equal characters
from the start of both strings, stopping at the first mismatch or at the end
of the shorter string). -/
def commonPrefixLen : List Char → List Char → Nat
  | a :: as, b :: bs => if a = b then commonPrefixLen as bs + 1 else 0
  | _, _ => 0

/-- `Array.prototype.indexOf`, as an `Option` (the source maps `-1` away
immediately with `.filter(i => i >= 0)`). -/
def jsIndexOf (l : List Nat) (x : Nat) : Option Nat :=
  match l with
  | [] => none
  | y :: ys => if y = x then some 0 else (jsIndexOf ys x).map (· + 1)

/-- The inner `while` loop of the subsequence matcher: scan `xs` from the
front comparing against `c`, reporting the running counter (which starts at
`i`) at the first hit. -/
def findFromAux (c : Char) : List Char → Nat → Option Nat
  | [], _ => none
  | x :: xs, i => if x = c then some i else findFromAux c xs (i + 1)

/-- Search `L` for `c` starting at absolute position `t`; returns the
absolute position of the first occurrence at or after `t`. -/
def findCharFrom (L : List Char) (t : Nat) (c : Char) : Option Nat :=
  findFromAux c (L.drop t) t

-- ## Data model

/-- One maximal run of letters in the title (`TitleWord` in the source). -/
structure TitleWord where
  word : List Char
  startIndex : Nat
  letterStartIndex : Nat
  letterEndIndex : Nat
deriving DecidableEq, Repr

/-- The pre-computed title representation (`TitleInfo` in the source). -/
structure TitleInfo where
  original : List Char
  letters : List Char
  letterPositions : List Nat
  words : List TitleWord
  initials : List Char
deriving DecidableEq, Repr

/-- Match categories of `WordMatch.type`. -/
inductive MatchType where
  | exact
  | compound
  | near
deriving DecidableEq, Repr

/-- An output record (`WordMatch` in the source).  `components` is empty for
non-compound matches; `editDistance` is `none` except for near matches. -/
structure WordMatch where
  word : List Char
  indices : List Nat
  niceness : ℚ
  type : MatchType
  components : List (List Char)
  editDistance : Option Nat
deriving DecidableEq, Repr

-- ## Title analyzer

/-- The maximal-letter-run scanner (`wordRegex.exec` loop) as a left-to-right
automaton over the indexed characters: the state holds the start index and
the (reversed) characters of the run currently being read. -/
def runsAux : List (Nat × Char) → Option (Nat × List Char) → List (Nat × List Char)
  | [], none => []
  | [], some st => [(st.1, st.2.reverse)]
  | p :: rest, none =>
    if isAsciiLetter p.2 then runsAux rest (some (p.1, [p.2])) else runsAux rest none
  | p :: rest, some st =>
    if isAsciiLetter p.2 then runsAux rest (some (st.1, p.2 :: st.2))
    else (st.1, st.2.reverse) :: runsAux rest none

/-- All maximal runs of ASCII letters of the indexed title, with the original
index of the first character of each run. -/
def letterRuns (l : List (Nat × Char)) : List (Nat × List Char) :=
  runsAux l none

/-- Build the `TitleWord` records from the runs, threading the running
letter-count cursor (`letterIndex` in the source). -/
def buildWords : List (Nat × List Char) → Nat → List TitleWord
  | [], _ => []
  | r :: rest, li =>
    ⟨r.2.map asciiLower, r.1, li, li + r.2.length⟩ :: buildWords rest (li + r.2.length)

/-- `analyzeTitleTitle`: pre-compute the title information. -/
def analyzeTitleTitle (title : List Char) : TitleInfo :=
  let entries := title.enum.filter fun p => isAsciiLetter p.2
  let letterPositions := entries.map fun p => p.1
  let letters := entries.map fun p => asciiLower p.2
  let words := buildWords (letterRuns title.enum) 0
  let initials := words.filterMap fun w => w.word.head?
  ⟨title, letters, letterPositions, words, initials⟩

-- ## Subsequence matcher

/-- The cursor scan of `findWordInTitle` over the stripped letters, returning
the matched positions in `letters` (the source pushes
`letterPositions[titleIdx]` instead; the mapping is applied by the wrapper
below). -/
def greedyScan (L : List Char) : Nat → List Char → Option (List Nat)
  | _, [] => some []
  | t, c :: cs =>
    match findCharFrom L t c with
    | none => none
    | some j => (greedyScan L (j + 1) cs).map fun js => j :: js

/-- `findWordInTitle`: greedy left-to-right subsequence match of the
lowercased word against the title letters; on success, the matched letter
positions mapped through `letterPositions` to original-title indices. -/
def findWordInTitle (ti : TitleInfo) (word : List Char) : Option (List Nat) :=
  let wordLower := word.map asciiLower
  if ti.letters.length < wordLower.length then none
  else (greedyScan ti.letters 0 wordLower).map fun js =>
    js.map fun j => ti.letterPositions.getD j 0

-- ## Niceness scorer (the later, guard-complete evolution of `calculateNiceness`)

/-- The recovery step of `calculateNiceness`:
`indices.map(i => letterPositions.indexOf(i)).filter(i => i >= 0)`. -/
def letterIndicesOf (ti : TitleInfo) (indices : List Nat) : List Nat :=
  indices.filterMap fun origIdx => jsIndexOf ti.letterPositions origIdx

/-- The inner loop shared by the coverage and start-letter passes: index of
the first title word whose letter span contains `j` (the loop `break`s at the
first hit). -/
def spanFindIdx (words : List TitleWord) (j : Nat) : Option Nat :=
  match words with
  | [] => none
  | w :: ws =>
    if w.letterStartIndex ≤ j && j < w.letterEndIndex then some 0
    else (spanFindIdx ws j).map (· + 1)

/-- The first title word whose letter span contains `j`. -/
def spanFind (words : List TitleWord) (j : Nat) : Option TitleWord :=
  match words with
  | [] => none
  | w :: ws =>
    if w.letterStartIndex ≤ j && j < w.letterEndIndex then some w
    else spanFind ws j

/-- The `wordsUsed` set of the coverage pass: distinct indices of title words
touched by the matched letter positions, in first-touch order. -/
def wordsUsed (words : List TitleWord) (letterIdxs : List Nat) : List Nat :=
  letterIdxs.foldl
    (fun acc j =>
      match spanFindIdx words j with
      | some wi => if acc.contains wi then acc else acc ++ [wi]
      | none => acc)
    []

/-- Position score of one matched letter inside its title word
(`1 - posInWord / max(wordLength - 1, 1)`); `0` when no title word contains
the letter (the source adds nothing in that case). -/
def posScoreOf (words : List TitleWord) (j : Nat) : ℚ :=
  match spanFind words j with
  | none => 0
  | some tw =>
    1 - ((j - tw.letterStartIndex : Nat) : ℚ)
        / ((max (tw.letterEndIndex - tw.letterStartIndex - 1) 1 : Nat) : ℚ)

/-- The accumulated `startLetterScore`. -/
def startLetterScore (words : List TitleWord) (letterIdxs : List Nat) : ℚ :=
  (letterIdxs.map fun j => posScoreOf words j).sum

/-- Score block 0: `+25` when the matched letter positions include the first
letter of the first title word. -/
def nicenessFirstTerm (ti : TitleInfo) (letterIdxs : List Nat) : ℚ :=
  match ti.words with
  | [] => 0
  | w0 :: _ => if letterIdxs.contains w0.letterStartIndex then 25 else 0

/-- Score block 1: word coverage, `0` when the title has no words. -/
def nicenessCoverageTerm (ti : TitleInfo) (letterIdxs : List Nat) : ℚ :=
  if 0 < ti.words.length then
    ((wordsUsed ti.words letterIdxs).length : ℚ) / (ti.words.length : ℚ) * 40
  else 0

/-- Score block 2: start-letter usage, the divisor guarded by
`Math.max(wordLen, 1)`. -/
def nicenessStartTerm (ti : TitleInfo) (word : List Char) (letterIdxs : List Nat) : ℚ :=
  startLetterScore ti.words letterIdxs / ((max word.length 1 : Nat) : ℚ) * 30

/-- Score block 3: initials-prefix bonus, guarded on a non-empty prefix and
non-empty initials. -/
def nicenessInitialsTerm (ti : TitleInfo) (word : List Char) : ℚ :=
  let k := commonPrefixLen (word.map asciiLower) ti.initials
  if 0 < k && 0 < ti.initials.length then (k : ℚ) / (ti.initials.length : ℚ) * 20
  else 0

/-- Score block 4: word length bonus. -/
def nicenessLengthTerm (word : List Char) : ℚ :=
  min ((word.length : ℚ) / 10) 1 * 10

/-- `calculateNiceness`: the guarded composite score, rounded to 2 decimals. -/
def calculateNiceness (ti : TitleInfo) (word : List Char) (indices : List Nat) : ℚ :=
  let letterIndices := letterIndicesOf ti indices
  round2 (nicenessFirstTerm ti letterIndices
    + nicenessCoverageTerm ti letterIndices
    + nicenessStartTerm ti word letterIndices
    + nicenessInitialsTerm ti word
    + nicenessLengthTerm word)

/-- The niceness formula exactly as the specification words it, stated on the
matched letter positions themselves: first-letter bonus, word coverage over
the title word count, start-letter sum divided by the candidate word length,
initials-prefix bonus when the common prefix is non-empty, and the length
bonus; the sum rounded to 2 decimals. -/
def specNiceness (ti : TitleInfo) (word : List Char) (js : List Nat) : ℚ :=
  let firstBonus : ℚ :=
    match ti.words with
    | [] => 0
    | w0 :: _ => if js.contains w0.letterStartIndex then 25 else 0
  let coverage : ℚ := ((wordsUsed ti.words js).length : ℚ) / (ti.words.length : ℚ) * 40
  let startBonus : ℚ := startLetterScore ti.words js / (word.length : ℚ) * 30
  let k := commonPrefixLen (word.map asciiLower) ti.initials
  let initialsBonus : ℚ := if 0 < k then (k : ℚ) / (ti.initials.length : ℚ) * 20 else 0
  let lengthBonus : ℚ := min ((word.length : ℚ) / 10) 1 * 10
  round2 (firstBonus + coverage + startBonus + initialsBonus + lengthBonus)

-- ## Edit distance engine

/-- The inner `for j` loop of `editDistance`: compute the tail of the current
row.  `prevSuf` is the previous row from position `j - 1` on, `left` the
entry `curr[j - 1]` just computed. -/
def levRowAux (c : Char) : List Char → List Nat → Nat → List Nat
  | [], _, _ => []
  | bj :: brest, prevSuf, left =>
    let diag := prevSuf.headD 0
    let up := prevSuf.tail.headD 0
    let v := if c = bj then diag else 1 + min diag (min up left)
    v :: levRowAux c brest prevSuf.tail v

/-- The outer `for i` loop of `editDistance`: fold the rows over the
characters of `a`, threading the row counter. -/
def edLoop (b : List Char) : List Char → Nat → List Nat → List Nat
  | [], _, prev => prev
  | c :: as, i, prev => edLoop b as (i + 1) ((i + 1) :: levRowAux c b prev (i + 1))

/-- `editDistance`: Levenshtein distance via two rolling rows. -/
def editDistance (a b : List Char) : Nat :=
  (edLoop b a 0 (List.range (b.length + 1))).getD b.length 0

/-- Reference recursive Levenshtein distance, used to state and prove the
algebraic properties of the row-based `editDistance`. -/
def lev : List Char → List Char → Nat
  | [], ys => ys.length
  | x :: xs, [] => xs.length + 1
  | x :: xs, y :: ys =>
    if x = y then lev xs ys
    else 1 + min (lev xs ys) (min (lev xs (y :: ys)) (lev (x :: xs) ys))
termination_by a b => (a.length, b.length)

/-- Proof-side view of a DP row: the distances from `arev` to the reversals
of the successively longer prefixes of `bcrev.reverse ++ bs`. -/
def rowFrom (arev bcrev : List Char) : List Char → List Nat
  | [] => [lev arev bcrev]
  | bj :: rest => lev arev bcrev :: rowFrom arev (bj :: bcrev) rest

-- ## Word set and search options

/-- `buildWordSet`: the membership structure over the lowercased dictionary
(modelled by its member list). -/
def buildWordSet (words : List (List Char)) : List (List Char) :=
  words.map fun w => w.map asciiLower

/-- The options record of `findAllMatches`. -/
structure SearchOptions where
  minLength : Nat
  maxResults : Nat
  searchTerm : List Char
  includeCompounds : Bool
deriving DecidableEq, Repr

/-- The record returned by `findAllMatches`. -/
structure SearchResult where
  exact : List WordMatch
  compound : List WordMatch
deriving DecidableEq, Repr

-- ## Sorting

/-- The sort comparator of the exact and compound lists
(`b.niceness - a.niceness`, then `b.word.length - a.word.length`, then
`a.word.localeCompare(b.word)`), read as the relation "`a` may precede `b`". -/
def matchLE (a b : WordMatch) : Bool :=
  if a.niceness = b.niceness then
    if a.word.length = b.word.length then lexLE a.word b.word
    else decide (b.word.length < a.word.length)
  else decide (b.niceness < a.niceness)

/-- `matchLE` as a relation, for the stable sort. -/
def MatchRel (a b : WordMatch) : Prop :=
  matchLE a b = true

instance : DecidableRel MatchRel := fun a b =>
  instDecidableEqBool (matchLE a b) true

/-- The near-match sort comparator (`b.niceness - a.niceness` only). -/
def nearLE (a b : WordMatch) : Bool :=
  decide (b.niceness ≤ a.niceness)

/-- `nearLE` as a relation. -/
def NearRel (a b : WordMatch) : Prop :=
  nearLE a b = true

instance : DecidableRel NearRel := fun a b =>
  instDecidableEqBool (nearLE a b) true

-- ## Exact match search

/-- The dictionary pass of `findAllMatches`: filter by length, title length
and substring of the search term, then run the subsequence matcher and score
the hits. -/
def exactCandidates (ti : TitleInfo) (allWords : List (List Char))
    (minLength : Nat) (searchLower : List Char) : List WordMatch :=
  allWords.filterMap fun word =>
    if word.length < minLength then none
    else if ti.letters.length < word.length then none
    else if searchLower ≠ [] && !(isSubstrOf searchLower word) then none
    else
      match findWordInTitle ti word with
      | none => none
      | some indices =>
        some ⟨word, indices, calculateNiceness ti word indices, .exact, [], none⟩

-- ## Compound synthesizer (`generateCompoundMatches`)

/-- One pass of the nested pair loops of `generateCompoundMatches`: process
the ordered pairs in row-major order, threading the `seen` set and the number
of compounds already produced, stopping at the candidate cap. -/
def genLoop (ti : TitleInfo) (wordSet : List (List Char)) (searchLower : List Char)
    (minWordLength maxCandidates : Nat) :
    List (WordMatch × WordMatch) → List (List Char) → Nat → List WordMatch
  | [], _, _ => []
  | (first, second) :: rest, seen, count =>
    if maxCandidates ≤ count then []
    else
      let combinedWord := first.word ++ second.word
      if combinedWord.length < minWordLength then
        genLoop ti wordSet searchLower minWordLength maxCandidates rest seen count
      else if ti.letters.length < combinedWord.length then
        genLoop ti wordSet searchLower minWordLength maxCandidates rest seen count
      else if searchLower ≠ [] && !(isSubstrOf searchLower combinedWord) then
        genLoop ti wordSet searchLower minWordLength maxCandidates rest seen count
      else if combinedWord ∈ wordSet then
        genLoop ti wordSet searchLower minWordLength maxCandidates rest seen count
      else if combinedWord ∈ seen then
        genLoop ti wordSet searchLower minWordLength maxCandidates rest seen count
      else
        match findWordInTitle ti combinedWord with
        | none => genLoop ti wordSet searchLower minWordLength maxCandidates rest seen count
        | some indices =>
          ⟨combinedWord, indices,
            round2 (calculateNiceness ti combinedWord indices * (9 / 10)),
            .compound, [first.word, second.word], none⟩
            :: genLoop ti wordSet searchLower minWordLength maxCandidates rest
                (combinedWord :: seen) (count + 1)

/-- All ordered pairs of distinct positions of the component pool
(the nested loops skip only `i === j`). -/
def poolPairs (pool : List WordMatch) : List (WordMatch × WordMatch) :=
  pool.enum.flatMap fun p =>
    pool.enum.filterMap fun q => if p.1 = q.1 then none else some (p.2, q.2)

/-- `generateCompoundMatches`: stitch pairs of exact matches into fabricated
compound words, validate, score with the ×0.9 penalty, sort and truncate. -/
def generateCompoundMatches (ti : TitleInfo) (exactMatches : List WordMatch)
    (wordSet : List (List Char)) (searchLower : List Char)
    (minWordLength maxResults minComponentLength componentPoolSize : Nat) : List WordMatch :=
  if maxResults = 0 then []
  else
    let usableMatches := exactMatches.filter fun m => minComponentLength ≤ m.word.length
    if usableMatches.length < 2 then []
    else
      let componentPool := usableMatches.take componentPoolSize
      let maxCandidates := max (maxResults * 3) componentPool.length
      let compounds :=
        genLoop ti wordSet searchLower minWordLength maxCandidates
          (poolPairs componentPool) [] 0
      (compounds.insertionSort MatchRel).take maxResults

-- ## Main search (`findAllMatches`, the evolution with generated compounds)

/-- `findAllMatches`: collect and sort exact matches, truncate, then generate
compound matches and drop any compound colliding with a returned exact
word. -/
def findAllMatches (ti : TitleInfo) (allWords : List (List Char))
    (wordSet : List (List Char)) (options : SearchOptions) : SearchResult :=
  let searchLower := (jsTrim options.searchTerm).map asciiLower
  let allExactMatches := exactCandidates ti allWords options.minLength searchLower
  let sorted := allExactMatches.insertionSort MatchRel
  let exact := sorted.take options.maxResults
  let exactWordSet := exact.map fun m => m.word
  let compound :=
    if options.includeCompounds then
      let compoundLimit := max 1 (options.maxResults / 2)
      let minComponentLength := max 2 (min 4 options.minLength)
      (generateCompoundMatches ti allExactMatches wordSet searchLower
        options.minLength compoundLimit minComponentLength 80).filter
        fun c => !(exactWordSet.contains c.word)
    else []
  ⟨exact, compound⟩

-- ## Near-match search (`findNearMatches`)

/-- `containsSubsequence`: is `target` a subsequence of `source`? -/
def containsSubsequence : List Char → List Char → Bool
  | _, [] => true
  | [], _ :: _ => false
  | s :: ss, t :: ts =>
    if s = t then containsSubsequence ss ts else containsSubsequence ss (t :: ts)

/-- The highlight-index recovery of `findNearMatches`: walk the candidate
left to right matching successive initials; for each matched initial `ii`
record the original start index of title word `ii` (when it exists).  When
the candidate is exhausted the walk stops. -/
def nearIndicesAux (ti : TitleInfo) (wordLower : List Char) :
    List Char → Nat → Nat → List Nat
  | [], _, _ => []
  | c :: rest, ii, wi =>
    if wordLower.length ≤ wi then []
    else
      match findCharFrom wordLower wi c with
      | none => []
      | some j =>
        match ti.words.get? ii with
        | some tw => tw.startIndex :: nearIndicesAux ti wordLower rest (ii + 1) (j + 1)
        | none => nearIndicesAux ti wordLower rest (ii + 1) (j + 1)

/-- The candidate loop of `findNearMatches`, threading the number of raw
results so far and stopping at `cap` (`maxResults * 2`). -/
def nearLoop (ti : TitleInfo) (initials : List Char)
    (maxEditDistance cap minLen maxLen : Nat) :
    List (List Char) → Nat → List WordMatch
  | [], _ => []
  | word :: rest, count =>
    if word.length < minLen || maxLen < word.length then
      nearLoop ti initials maxEditDistance cap minLen maxLen rest count
    else
      let wordLower := word.map asciiLower
      let distance := editDistance wordLower initials
      if 0 < distance && distance ≤ maxEditDistance then
        match findWordInTitle ti word with
        | some _ => nearLoop ti initials maxEditDistance cap minLen maxLen rest count
        | none =>
          let closeness : ℚ :=
            (1 - (distance : ℚ) / ((maxEditDistance : ℚ) + 1))
            + (if wordLower.head? = initials.head? then 2 / 10 else 0)
            + (if containsSubsequence wordLower initials then 3 / 10 else 0)
          let niceness := min closeness 1 * 50
          let m : WordMatch :=
            ⟨word, nearIndicesAux ti wordLower initials 0 0,
              round2 niceness, .near, [], some distance⟩
          if cap ≤ count + 1 then [m]
          else m :: nearLoop ti initials maxEditDistance cap minLen maxLen rest (count + 1)
      else nearLoop ti initials maxEditDistance cap minLen maxLen rest count

/-- `findNearMatches`: dictionary words within `maxEditDistance` of the
title initials, excluding exact subsequence matches, scored by closeness,
sorted by niceness and truncated. -/
def findNearMatches (ti : TitleInfo) (allWords : List (List Char))
    (maxEditDistance maxResults : Nat) : List WordMatch :=
  let initials := ti.initials.map asciiLower
  if initials.length < 2 then []
  else
    let minLen := max 2 (initials.length - maxEditDistance)
    let maxLen := initials.length + maxEditDistance + 2
    let results :=
      nearLoop ti initials maxEditDistance (maxResults * 2) minLen maxLen allWords 0
    (results.insertionSort NearRel).take maxResults

-- ## Proof-side auxiliary definitions

/-- The letter spans of successive title words are contiguous from cursor
`k`: each word starts where the cursor stands and moves it to its own end
index. -/
def spansFrom : Nat → List TitleWord → Prop
  | _, [] => True
  | k, w :: ws => w.letterStartIndex = k ∧ spansFrom w.letterEndIndex ws

/-- `js'` is an increasing witness for `w` inside `L`: positions strictly
increase and the letter at each position is the corresponding character of
`w`. -/
def IsWitnessOf (L : List Char) (js' : List Nat) (w : List Char) : Prop :=
  js'.Chain' (· < ·) ∧ List.Forall₂ (fun j c => L[j]? = some c) js' w

-- Concrete inputs used by the witness theorems.

/-- The title `"Cat Dog"`. -/
def exTitle : List Char := ['C', 'a', 't', ' ', 'D', 'o', 'g']

/-- The dictionary `["cat", "dog"]`. -/
def exDict : List (List Char) := [['c', 'a', 't'], ['d', 'o', 'g']]

/-- The dictionary `["ce", "cat", "dog"]` (adds a near-miss of the initials
`"cd"`). -/
def exDictNear : List (List Char) := [['c', 'e'], ['c', 'a', 't'], ['d', 'o', 'g']]

-- # Theorems

-- ## Edit distance: bridging the rolling-row loop to the recursive distance

theorem lev_nil_right (xs : List Char) : lev xs [] = xs.length := by
  cases xs <;> simp [lev]

theorem lev_self (xs : List Char) : lev xs xs = 0 := by
  induction xs with
  | nil => simp [lev]
  | cons x xs ih => simp [lev, ih]

theorem lev_comm (a : List Char) : ∀ b : List Char, lev a b = lev b a := by
  induction a with
  | nil => intro b; cases b <;> simp [lev]
  | cons x xs iha =>
    intro b
    induction b with
    | nil => simp [lev]
    | cons y ys ihb =>
      by_cases h : x = y
      · subst h
        simp only [lev, if_pos rfl]
        exact iha ys
      · have h' : ¬ y = x := fun hyx => h hyx.symm
        simp only [lev, if_neg h, if_neg h']
        rw [iha ys, iha (y :: ys), ihb]
        rw [Nat.min_comm (lev ys (x :: xs)) (lev (y :: ys) xs)]

theorem rowFrom_eq_cons (arev bcrev : List Char) (bs : List Char) :
    rowFrom arev bcrev bs = lev arev bcrev :: (rowFrom arev bcrev bs).tail := by
  cases bs <;> simp [rowFrom]

theorem levRowAux_spec (c : Char) (arev : List Char) :
    ∀ (bs bcrev : List Char),
      levRowAux c bs (rowFrom arev bcrev bs) (lev (c :: arev) bcrev)
        = (rowFrom (c :: arev) bcrev bs).tail := by
  intro bs
  induction bs with
  | nil => intro bcrev; simp [rowFrom, levRowAux]
  | cons bj rest ih =>
    intro bcrev
    have hup : (rowFrom arev (bj :: bcrev) rest).headD 0 = lev arev (bj :: bcrev) := by
      rw [rowFrom_eq_cons]; rfl
    have hv : (if c = bj then lev arev bcrev
        else 1 + min (lev arev bcrev)
          (min (lev arev (bj :: bcrev)) (lev (c :: arev) bcrev)))
        = lev (c :: arev) (bj :: bcrev) := by
      simp [lev]
    simp only [rowFrom, levRowAux, List.headD_cons, List.tail_cons, hup, hv, ih (bj :: bcrev)]
    rw [← rowFrom_eq_cons]

theorem edLoop_spec (b : List Char) :
    ∀ (as arev : List Char),
      edLoop b as arev.length (rowFrom arev [] b) = rowFrom (as.reverse ++ arev) [] b := by
  intro as
  induction as with
  | nil => intro arev; simp [edLoop]
  | cons c as' ih =>
    intro arev
    have hrow : (arev.length + 1) :: levRowAux c b (rowFrom arev [] b) (arev.length + 1)
        = rowFrom (c :: arev) [] b := by
      have hl : arev.length + 1 = lev (c :: arev) [] := by simp [lev]
      rw [hl, levRowAux_spec c arev b []]
      rw [← rowFrom_eq_cons]
    calc edLoop b (c :: as') arev.length (rowFrom arev [] b)
        = edLoop b as' (arev.length + 1)
            ((arev.length + 1) :: levRowAux c b (rowFrom arev [] b) (arev.length + 1)) := rfl
      _ = edLoop b as' (c :: arev).length (rowFrom (c :: arev) [] b) := by
            rw [hrow]; rfl
      _ = rowFrom (as'.reverse ++ (c :: arev)) [] b := ih (c :: arev)
      _ = rowFrom ((c :: as').reverse ++ arev) [] b := by
            simp [List.append_assoc]

theorem rowFrom_nil_left : ∀ (bs bcrev : List Char),
    rowFrom [] bcrev bs = List.range' bcrev.length (bs.length + 1) := by
  intro bs
  induction bs with
  | nil => intro bcrev; simp [rowFrom, lev]
  | cons bj rest ih =>
    intro bcrev
    rw [List.range'_succ]
    simp only [rowFrom, List.length_cons]
    congr 1
    · simp [lev]
    · simpa using ih (bj :: bcrev)

theorem rowFrom_getD : ∀ (bs arev bcrev : List Char),
    (rowFrom arev bcrev bs).getD bs.length 0 = lev arev (bs.reverse ++ bcrev) := by
  intro bs
  induction bs with
  | nil => intro arev bcrev; simp [rowFrom]
  | cons bj rest ih =>
    intro arev bcrev
    simp only [rowFrom, List.length_cons, List.getD_cons_succ]
    rw [ih arev (bj :: bcrev)]
    simp [List.append_assoc]

theorem editDistance_eq_lev (a b : List Char) :
    editDistance a b = lev a.reverse b.reverse := by
  unfold editDistance
  have h0 : List.range (b.length + 1) = rowFrom [] [] b := by
    rw [List.range_eq_range', rowFrom_nil_left b []]
    rfl
  rw [h0]
  have h1 : edLoop b a 0 (rowFrom [] [] b) = rowFrom (a.reverse ++ []) [] b :=
    edLoop_spec b a []
  rw [h1]
  rw [List.append_nil]
  rw [rowFrom_getD b a.reverse []]
  simp

/-- C8: `editDistance` is symmetric, vanishes on equal strings, and equals
the length of `a` against the empty string. -/
theorem claim_C8_editDistance_algebra (a b : List Char) :
    editDistance a b = editDistance b a
      ∧ editDistance a a = 0
      ∧ editDistance a [] = a.length := by
  refine ⟨?_, ?_, ?_⟩
  · rw [editDistance_eq_lev, editDistance_eq_lev, lev_comm]
  · rw [editDistance_eq_lev, lev_self]
  · rw [editDistance_eq_lev]
    simp [lev_nil_right]

-- ## Title analyzer invariants

theorem enum_pairwise_fst (t : List Char) :
    t.enum.Pairwise (fun a b => a.1 < b.1) := by
  have h := List.pairwise_lt_range t.length
  rw [← List.enum_map_fst t] at h
  exact List.pairwise_map.mp h

theorem analyze_letterPositions_pairwise (t : List Char) :
    (analyzeTitleTitle t).letterPositions.Pairwise (· < ·) := by
  show ((t.enum.filter fun p => isAsciiLetter p.2).map fun p => p.1).Pairwise (· < ·)
  exact List.pairwise_map.mpr ((enum_pairwise_fst t).filter _)

theorem analyze_length_eq (t : List Char) :
    (analyzeTitleTitle t).letterPositions.length = (analyzeTitleTitle t).letters.length := by
  simp [analyzeTitleTitle]

theorem runsAux_nonempty : ∀ (l : List (Nat × Char)) (st : Option (Nat × List Char)),
    (∀ s acc, st = some (s, acc) → acc ≠ []) →
    ∀ r ∈ runsAux l st, r.2 ≠ [] := by
  intro l
  induction l with
  | nil =>
    intro st hst r hr
    rcases st with _ | ⟨s, acc⟩
    · simp [runsAux] at hr
    · have : r = (s, acc.reverse) := by simpa [runsAux] using hr
      subst this
      simpa using hst s acc rfl
  | cons p rest ih =>
    intro st hst r hr
    rcases st with _ | ⟨s, acc⟩
    · by_cases h : isAsciiLetter p.2
      · exact ih (some (p.1, [p.2])) (by intro s acc he; cases he; simp)
          r (by simpa [runsAux, h] using hr)
      · exact ih none (by intro s acc he; cases he) r (by simpa [runsAux, h] using hr)
    · by_cases h : isAsciiLetter p.2
      · exact ih (some (s, p.2 :: acc)) (by intro s' acc' he; cases he; simp)
          r (by simpa [runsAux, h] using hr)
      · rw [show runsAux (p :: rest) (some (s, acc))
            = (s, acc.reverse) :: runsAux rest none by simp [runsAux, h]] at hr
        rcases List.mem_cons.mp hr with hr | hr
        · subst hr; simpa using hst s acc rfl
        · exact ih none (by intro s' acc' he; cases he) r hr

/-- The characters accumulated in the scanner state. -/
def stAcc : Option (Nat × List Char) → List Char
  | none => []
  | some st => st.2.reverse

theorem runsAux_join : ∀ (l : List (Nat × Char)) (st : Option (Nat × List Char)),
    ((runsAux l st).map fun r => r.2).join
      = stAcc st ++ (l.filter fun p => isAsciiLetter p.2).map fun p => p.2 := by
  intro l
  induction l with
  | nil =>
    intro st
    rcases st with _ | ⟨s, acc⟩
    · simp [runsAux, stAcc]
    · simp [runsAux, stAcc]
  | cons p rest ih =>
    intro st
    rcases st with _ | ⟨s, acc⟩
    · by_cases h : isAsciiLetter p.2
      · rw [show runsAux (p :: rest) none = runsAux rest (some (p.1, [p.2])) by
          simp [runsAux, h]]
        rw [ih (some (p.1, [p.2]))]
        simp [stAcc, List.filter_cons, h]
      · rw [show runsAux (p :: rest) none = runsAux rest none by simp [runsAux, h]]
        rw [ih none]
        simp [stAcc, List.filter_cons, h]
    · by_cases h : isAsciiLetter p.2
      · rw [show runsAux (p :: rest) (some (s, acc))
            = runsAux rest (some (s, p.2 :: acc)) by simp [runsAux, h]]
        rw [ih (some (s, p.2 :: acc))]
        simp [stAcc, List.filter_cons, h]
      · rw [show runsAux (p :: rest) (some (s, acc))
            = (s, acc.reverse) :: runsAux rest none by simp [runsAux, h]]
        simp only [List.map_cons, List.join_cons, ih none]
        simp [stAcc, List.filter_cons, h]

theorem buildWords_letterEnd : ∀ (rs : List (Nat × List Char)) (li : Nat),
    ∀ w ∈ buildWords rs li, w.letterEndIndex = w.letterStartIndex + w.word.length := by
  intro rs
  induction rs with
  | nil => intro li w hw; simp [buildWords] at hw
  | cons r rest ih =>
    intro li w hw
    rcases (by simpa [buildWords] using hw :
        w = (⟨r.2.map asciiLower, r.1, li, li + r.2.length⟩ : TitleWord)
          ∨ w ∈ buildWords rest (li + r.2.length)) with h | h
    · subst h; simp
    · exact ih _ w h

theorem buildWords_spans : ∀ (rs : List (Nat × List Char)) (li : Nat),
    spansFrom li (buildWords rs li) := by
  intro rs
  induction rs with
  | nil => intro li; simp [buildWords, spansFrom]
  | cons r rest ih => intro li; exact ⟨rfl, ih (li + r.2.length)⟩

theorem buildWords_join : ∀ (rs : List (Nat × List Char)) (li : Nat),
    ((buildWords rs li).map fun w => w.word).join
      = ((rs.map fun r => r.2).join).map asciiLower := by
  intro rs
  induction rs with
  | nil => intro li; simp [buildWords]
  | cons r rest ih =>
    intro li
    simp only [buildWords, List.map_cons, List.join_cons, ih (li + r.2.length)]
    simp

theorem buildWords_word_ne_nil : ∀ (rs : List (Nat × List Char)) (li : Nat),
    (∀ r ∈ rs, r.2 ≠ []) → ∀ w ∈ buildWords rs li, w.word ≠ [] := by
  intro rs
  induction rs with
  | nil => intro li _ w hw; simp [buildWords] at hw
  | cons r rest ih =>
    intro li hne w hw
    rcases (by simpa [buildWords] using hw :
        w = (⟨r.2.map asciiLower, r.1, li, li + r.2.length⟩ : TitleWord)
          ∨ w ∈ buildWords rest (li + r.2.length)) with h | h
    · subst h
      simpa using hne r (by simp)
    · exact ih _ (fun q hq => hne q (by simp [hq])) w h

theorem filterMap_head_length {α β : Type} (f : β → List α) (ws : List β)
    (h : ∀ w ∈ ws, f w ≠ []) :
    (ws.filterMap fun w => (f w).head?).length = ws.length := by
  induction ws with
  | nil => rfl
  | cons w rest ih =>
    have hw : f w ≠ [] := h w (by simp)
    rcases hfw : f w with _ | ⟨a, as⟩
    · exact absurd hfw hw
    · simp only [List.filterMap_cons, hfw, List.head?_cons, List.length_cons]
      rw [ih (fun q hq => h q (by simp [hq]))]

theorem analyze_words_nonempty (t : List Char) :
    ∀ w ∈ (analyzeTitleTitle t).words, w.word ≠ [] := by
  intro w hw
  exact buildWords_word_ne_nil (letterRuns t.enum) 0
    (runsAux_nonempty t.enum none (by intro s acc he; cases he)) w hw

/-- C9: the analyzer output satisfies the data-model invariant: strictly
increasing `letterPositions` of the same length as `letters`; each word span
as long as its word; spans contiguous from 0 and jointly covering `letters`
exactly; and one initial per word. -/
theorem claim_C9_analyzer_invariants (t : List Char) :
    (analyzeTitleTitle t).letterPositions.Pairwise (· < ·)
      ∧ (analyzeTitleTitle t).letterPositions.length = (analyzeTitleTitle t).letters.length
      ∧ (∀ w ∈ (analyzeTitleTitle t).words,
          w.letterEndIndex - w.letterStartIndex = w.word.length)
      ∧ spansFrom 0 (analyzeTitleTitle t).words
      ∧ ((analyzeTitleTitle t).words.map fun w => w.word).join = (analyzeTitleTitle t).letters
      ∧ (analyzeTitleTitle t).initials.length = (analyzeTitleTitle t).words.length := by
  refine ⟨analyze_letterPositions_pairwise t, analyze_length_eq t, ?_, ?_, ?_, ?_⟩
  · intro w hw
    rw [buildWords_letterEnd (letterRuns t.enum) 0 w hw]
    omega
  · exact buildWords_spans (letterRuns t.enum) 0
  · show ((buildWords (letterRuns t.enum) 0).map fun w => w.word).join
      = (t.enum.filter fun p => isAsciiLetter p.2).map fun p => asciiLower p.2
    rw [buildWords_join (letterRuns t.enum) 0]
    rw [show letterRuns t.enum = runsAux t.enum none from rfl]
    rw [runsAux_join t.enum none]
    simp [stAcc]
  · show ((buildWords (letterRuns t.enum) 0).filterMap fun w => w.word.head?).length
      = (buildWords (letterRuns t.enum) 0).length
    exact filterMap_head_length TitleWord.word _ (analyze_words_nonempty t)

/-- Witness for C9 at the title `"Cat Dog"` and its first title word. -/
theorem claim_C9_witness :
    (⟨['c', 'a', 't'], 0, 0, 3⟩ : TitleWord) ∈ (analyzeTitleTitle exTitle).words
      ∧ (⟨['c', 'a', 't'], 0, 0, 3⟩ : TitleWord).letterEndIndex
          - (⟨['c', 'a', 't'], 0, 0, 3⟩ : TitleWord).letterStartIndex
        = (⟨['c', 'a', 't'], 0, 0, 3⟩ : TitleWord).word.length :=
  ⟨by decide, (claim_C9_analyzer_invariants exTitle).2.2.1 _ (by decide)⟩

-- ## Subsequence matcher: correctness of the greedy cursor scan

theorem findFromAux_eq_none (c : Char) : ∀ (xs : List Char) (i : Nat),
    findFromAux c xs i = none ↔ c ∉ xs := by
  intro xs
  induction xs with
  | nil => intro i; simp [findFromAux]
  | cons x rest ih =>
    intro i
    by_cases h : x = c
    · simp [findFromAux, h]
    · simp only [findFromAux, if_neg h, ih (i + 1), List.mem_cons]
      constructor
      · intro hn hc
        rcases hc with hc | hc
        · exact h hc.symm
        · exact hn hc
      · intro hn hc
        exact hn (Or.inr hc)

theorem findFromAux_eq_some (c : Char) : ∀ (xs : List Char) (i j : Nat),
    findFromAux c xs i = some j →
    ∃ k, j = i + k ∧ k < xs.length ∧ xs[k]? = some c ∧ ∀ k' < k, xs[k']? ≠ some c := by
  intro xs
  induction xs with
  | nil => intro i j h; simp [findFromAux] at h
  | cons x rest ih =>
    intro i j h
    by_cases hx : x = c
    · refine ⟨0, ?_, by simp, by simp [hx], by omega⟩
      simpa [findFromAux, hx] using h.symm
    · simp only [findFromAux, if_neg hx, Option.map_eq_some'] at h
      rcases (by simpa [findFromAux, if_neg hx] using h :
          findFromAux c rest (i + 1) = some j) with h'
      rcases ih (i + 1) j h' with ⟨k, hk, hlen, hget, hmin⟩
      refine ⟨k + 1, by omega, by simpa using hlen, by simpa using hget, ?_⟩
      intro k' hk'
      match k' with
      | 0 => simpa using fun he => hx he
      | k' + 1 =>
        simp only [List.getElem?_cons_succ]
        exact hmin k' (by omega)

theorem findCharFrom_none (L : List Char) (t : Nat) (c : Char) :
    findCharFrom L t c = none ↔ c ∉ L.drop t :=
  findFromAux_eq_none c (L.drop t) t

theorem findCharFrom_some (L : List Char) (t : Nat) (c : Char) (j : Nat)
    (h : findCharFrom L t c = some j) :
    t ≤ j ∧ j < L.length ∧ L[j]? = some c
      ∧ ∀ i, t ≤ i → i < j → L[i]? ≠ some c := by
  rcases findFromAux_eq_some c (L.drop t) t j h with ⟨k, hk, hlen, hget, hmin⟩
  rw [List.getElem?_drop] at hget
  have hlen' : t + k < L.length := by
    have := List.length_drop t L
    omega
  subst hk
  refine ⟨by omega, hlen', hget, ?_⟩
  intro i hti hij
  have : (L.drop t)[i - t]? = L[t + (i - t)]? := List.getElem?_drop L t (i - t)
  rw [show t + (i - t) = i by omega] at this
  rw [← this]
  exact hmin (i - t) (by omega)

theorem greedyScan_length (L : List Char) : ∀ (w : List Char) (t : Nat) (js : List Nat),
    greedyScan L t w = some js → js.length = w.length := by
  intro w
  induction w with
  | nil =>
    intro t js h
    simp only [greedyScan, Option.some.injEq] at h
    subst h
    rfl
  | cons c cs ih =>
    intro t js h
    simp only [greedyScan] at h
    rcases hf : findCharFrom L t c with _ | j
    · rw [hf] at h; simp at h
    · rw [hf] at h
      rcases Option.map_eq_some'.mp h with ⟨js', hjs', rfl⟩
      simp [ih (j + 1) js' hjs']

theorem greedyScan_bounds (L : List Char) : ∀ (w : List Char) (t : Nat) (js : List Nat),
    greedyScan L t w = some js → ∀ j ∈ js, t ≤ j ∧ j < L.length := by
  intro w
  induction w with
  | nil =>
    intro t js h
    simp only [greedyScan, Option.some.injEq] at h
    subst h
    simp
  | cons c cs ih =>
    intro t js h j hj
    simp only [greedyScan] at h
    rcases hf : findCharFrom L t c with _ | j0
    · rw [hf] at h; simp at h
    · rw [hf] at h
      rcases Option.map_eq_some'.mp h with ⟨js', hjs', rfl⟩
      rcases findCharFrom_some L t c j0 hf with ⟨ht, hlt, _, _⟩
      rcases List.mem_cons.mp hj with rfl | hj'
      · exact ⟨ht, hlt⟩
      · have := ih (j0 + 1) js' hjs' j hj'
        exact ⟨by omega, this.2⟩

theorem greedyScan_chain (L : List Char) : ∀ (w : List Char) (t : Nat) (js : List Nat),
    greedyScan L t w = some js → js.Chain' (· < ·) := by
  intro w
  induction w with
  | nil =>
    intro t js h
    simp only [greedyScan, Option.some.injEq] at h
    subst h
    simp
  | cons c cs ih =>
    intro t js h
    simp only [greedyScan] at h
    rcases hf : findCharFrom L t c with _ | j0
    · rw [hf] at h; simp at h
    · rw [hf] at h
      rcases Option.map_eq_some'.mp h with ⟨js', hjs', rfl⟩
      rw [List.chain'_cons']
      refine ⟨?_, ih (j0 + 1) js' hjs'⟩
      intro b hb
      have hmem : b ∈ js' := by
        rcases js' with _ | ⟨x, xs⟩
        · simp at hb
        · simp_all
      have := greedyScan_bounds L cs (j0 + 1) js' hjs' b hmem
      omega

theorem greedyScan_chars (L : List Char) : ∀ (w : List Char) (t : Nat) (js : List Nat),
    greedyScan L t w = some js → List.Forall₂ (fun j c => L[j]? = some c) js w := by
  intro w
  induction w with
  | nil =>
    intro t js h
    simp only [greedyScan, Option.some.injEq] at h
    subst h
    exact List.Forall₂.nil
  | cons c cs ih =>
    intro t js h
    simp only [greedyScan] at h
    rcases hf : findCharFrom L t c with _ | j0
    · rw [hf] at h; simp at h
    · rw [hf] at h
      rcases Option.map_eq_some'.mp h with ⟨js', hjs', rfl⟩
      exact List.Forall₂.cons (findCharFrom_some L t c j0 hf).2.2.1 (ih (j0 + 1) js' hjs')

theorem sublist_drop_of_first_occurrence (c : Char) :
    ∀ (D : List Char) (cs : List Char) (k : Nat),
      (c :: cs).Sublist D → D[k]? = some c → (∀ k' < k, D[k']? ≠ some c) →
      cs.Sublist (D.drop (k + 1)) := by
  intro D
  induction D with
  | nil => intro cs k h _ _; simp at h
  | cons x xs ih =>
    intro cs k h hget hmin
    match k with
    | 0 =>
      have hx : x = c := by simpa using hget
      subst hx
      cases h with
      | cons _ h' => exact (List.sublist_cons_self x cs).trans h'
      | cons₂ _ h' => simpa using h'
    | k + 1 =>
      have hx : ¬ x = c := by
        intro he
        exact hmin 0 (by omega) (by simpa using he)
      have h' : (c :: cs).Sublist xs := by
        cases h with
        | cons _ h' => exact h'
        | cons₂ _ h' => exact absurd rfl hx
      simpa using ih cs k h' (by simpa using hget)
        (fun k' hk' => by simpa using hmin (k' + 1) (by omega))

theorem greedyScan_isSome_iff (L : List Char) : ∀ (w : List Char) (t : Nat),
    (greedyScan L t w).isSome ↔ w.Sublist (L.drop t) := by
  intro w
  induction w with
  | nil => intro t; simp [greedyScan]
  | cons c cs ih =>
    intro t
    constructor
    · intro h
      rcases Option.isSome_iff_exists.mp h with ⟨js, hjs⟩
      simp only [greedyScan] at hjs
      rcases hf : findCharFrom L t c with _ | j0
      · rw [hf] at hjs; simp at hjs
      · rw [hf] at hjs
        rcases Option.map_eq_some'.mp hjs with ⟨js', hjs', rfl⟩
        rcases findFromAux_eq_some c (L.drop t) t j0 hf with ⟨k, hjk, hklen, hkget, hkmin⟩
        have hcs : cs.Sublist ((L.drop t).drop (k + 1)) := by
          have hcs0 : cs.Sublist (L.drop (j0 + 1)) :=
            (ih (j0 + 1)).mp (Option.isSome_iff_exists.mpr ⟨js', hjs'⟩)
          rw [List.drop_drop]
          rw [show t + (k + 1) = j0 + 1 by omega]
          exact hcs0
        have hD : (L.drop t).drop k = c :: (L.drop t).drop (k + 1) := by
          have := List.getElem?_eq_getElem (l := L.drop t) (n := k) hklen
          rw [this] at hkget
          rw [List.drop_eq_getElem_cons hklen]
          simp only [Option.some.injEq] at hkget
          rw [hkget]
        have hsub : (c :: cs).Sublist ((L.drop t).drop k) := by
          rw [hD]
          exact List.Sublist.cons₂ c hcs
        exact hsub.trans (List.drop_sublist k (L.drop t))
    · intro h
      have hc : c ∈ L.drop t := h.subset (by simp)
      rcases hf : findCharFrom L t c with _ | j0
      · exact absurd ((findCharFrom_none L t c).mp hf) (by simpa using hc)
      · rcases findFromAux_eq_some c (L.drop t) t j0 hf with ⟨k, hjk, hklen, hkget, hkmin⟩
        have hcs : cs.Sublist (L.drop (j0 + 1)) := by
          have := sublist_drop_of_first_occurrence c (L.drop t) cs k h hkget hkmin
          rw [List.drop_drop] at this
          rw [show t + (k + 1) = j0 + 1 by omega] at this
          exact this
        have := (ih (j0 + 1)).mpr hcs
        rcases Option.isSome_iff_exists.mp this with ⟨js', hjs'⟩
        simp only [greedyScan, hf, hjs']
        simp

theorem greedyScan_minimal (L : List Char) : ∀ (w : List Char) (t : Nat) (js : List Nat),
    greedyScan L t w = some js →
    ∀ js', js'.Chain' (· < ·) → List.Forall₂ (fun j c => L[j]? = some c) js' w →
      (∀ j ∈ js', t ≤ j) → List.Forall₂ (· ≤ ·) js js' := by
  intro w
  induction w with
  | nil =>
    intro t js h js' _ hchars _
    have hjs : js = [] := by simpa [greedyScan] using h.symm
    have hjs' : js' = [] := by cases hchars; rfl
    simp [hjs, hjs']
  | cons c cs ih =>
    intro t js h js' hchain hchars hge
    simp only [greedyScan] at h
    rcases hf : findCharFrom L t c with _ | j0
    · rw [hf] at h; simp at h
    · rw [hf] at h
      rcases Option.map_eq_some'.mp h with ⟨js0, hjs0, rfl⟩
      rcases hchars with _ | ⟨hj'c, hrest⟩
      case cons j' js'0 =>
        have hj'ge : t ≤ j' := hge j' (by simp)
        have hle : j0 ≤ j' := by
          by_contra hlt
          exact (findCharFrom_some L t c j0 hf).2.2.2 j' hj'ge (by omega) hj'c
        refine List.Forall₂.cons hle ?_
        have hpw : List.Pairwise (· < ·) (j' :: js'0) :=
          List.chain'_iff_pairwise.mp hchain
        refine ih (j0 + 1) js0 hjs0 js'0 ?_ hrest ?_
        · exact (List.chain'_cons'.mp hchain).2
        · intro j hj
          have := (List.pairwise_cons.mp hpw).1 j hj
          omega

theorem map_getD_chain (pos : List Nat) (hpw : pos.Pairwise (· < ·))
    (js : List Nat) (hchain : js.Chain' (· < ·)) (hb : ∀ j ∈ js, j < pos.length) :
    (js.map fun j => pos.getD j 0).Chain' (· < ·) := by
  rw [List.chain'_iff_pairwise] at hchain ⊢
  rw [List.pairwise_map]
  refine List.Pairwise.imp_of_mem ?_ hchain
  intro a b ha hb' hab
  rw [List.getD_eq_getElem pos 0 (hb a ha), List.getD_eq_getElem pos 0 (hb b hb')]
  exact List.pairwise_iff_getElem.mp hpw a b (hb a ha) (hb b hb') hab

/-- C1: for analyzer-produced `TitleInfo`, `findWordInTitle` fails outright
when the word is longer than the letter pool, succeeds exactly when the
lowercased word is a subsequence of the letters, and on success yields one
strictly increasing original index per letter, obtained from the greedy
leftmost witness of the cursor scan (pointwise minimal among all increasing
witnesses). -/
theorem claim_C1_subsequence_matcher (t word : List Char) :
    ((analyzeTitleTitle t).letters.length < word.length →
      findWordInTitle (analyzeTitleTitle t) word = none)
      ∧ ((∃ idxs, findWordInTitle (analyzeTitleTitle t) word = some idxs)
          ↔ (word.map asciiLower).Sublist (analyzeTitleTitle t).letters)
      ∧ (∀ idxs, findWordInTitle (analyzeTitleTitle t) word = some idxs →
          idxs.length = word.length
          ∧ idxs.Chain' (· < ·)
          ∧ ∃ js,
              greedyScan (analyzeTitleTitle t).letters 0 (word.map asciiLower) = some js
              ∧ idxs = js.map (fun j => (analyzeTitleTitle t).letterPositions.getD j 0)
              ∧ IsWitnessOf (analyzeTitleTitle t).letters js (word.map asciiLower)
              ∧ ∀ js', IsWitnessOf (analyzeTitleTitle t).letters js' (word.map asciiLower) →
                  List.Forall₂ (· ≤ ·) js js') := by
  refine ⟨?_, ?_, ?_⟩
  · intro h
    simp [findWordInTitle, h]
  · constructor
    · intro ⟨idxs, h⟩
      by_cases hg : (analyzeTitleTitle t).letters.length < word.length
      · rw [show findWordInTitle (analyzeTitleTitle t) word = none from by
          simp [findWordInTitle, hg]] at h
        cases h
      · unfold findWordInTitle at h
        rw [if_neg (by simpa using hg)] at h
        rcases Option.map_eq_some'.mp h with ⟨js, hjs, _⟩
        have hsl := (greedyScan_isSome_iff (analyzeTitleTitle t).letters
          (word.map asciiLower) 0).mp (Option.isSome_iff_exists.mpr ⟨js, hjs⟩)
        simpa using hsl
    · intro h
      have hlen : (word.map asciiLower).length ≤ (analyzeTitleTitle t).letters.length :=
        h.length_le
      have hs := (greedyScan_isSome_iff (analyzeTitleTitle t).letters (word.map asciiLower) 0).mpr
        (by simpa using h)
      rcases Option.isSome_iff_exists.mp hs with ⟨js, hjs⟩
      refine ⟨js.map fun j => (analyzeTitleTitle t).letterPositions.getD j 0, ?_⟩
      unfold findWordInTitle
      rw [if_neg (by omega), hjs]
      rfl
  · intro idxs h
    by_cases hg : (analyzeTitleTitle t).letters.length < word.length
    · rw [show findWordInTitle (analyzeTitleTitle t) word = none from by
        simp [findWordInTitle, hg]] at h
      cases h
    · unfold findWordInTitle at h
      rw [if_neg (by simpa using hg)] at h
      rcases Option.map_eq_some'.mp h with ⟨js, hjs, rfl⟩
      have hlen := greedyScan_length (analyzeTitleTitle t).letters (word.map asciiLower) 0 js hjs
      have hbounds := greedyScan_bounds (analyzeTitleTitle t).letters (word.map asciiLower) 0 js hjs
      have hchain := greedyScan_chain (analyzeTitleTitle t).letters (word.map asciiLower) 0 js hjs
      have hchars := greedyScan_chars (analyzeTitleTitle t).letters (word.map asciiLower) 0 js hjs
      refine ⟨by simpa using hlen, ?_, js, hjs, rfl, ⟨hchain, hchars⟩, ?_⟩
      · refine map_getD_chain _ (analyze_letterPositions_pairwise t) js hchain ?_
        intro j hj
        rw [analyze_length_eq t]
        exact (hbounds j hj).2
      · intro js' hw'
        exact greedyScan_minimal (analyzeTitleTitle t).letters (word.map asciiLower) 0 js hjs
          js' hw'.1 hw'.2 (fun j hjmem => Nat.zero_le j)

/-- Witness for C1: the word `"cog"` in the title `"Cat Dog"` matches at the
original indices 0, 5, 6. -/
theorem claim_C1_witness :
    ([0, 5, 6] : List Nat).length = (['c', 'o', 'g'] : List Char).length
      ∧ ([0, 5, 6] : List Nat).Chain' (· < ·)
      ∧ ∃ js,
          greedyScan (analyzeTitleTitle exTitle).letters 0
              ((['c', 'o', 'g'] : List Char).map asciiLower) = some js
          ∧ ([0, 5, 6] : List Nat)
              = js.map (fun j => (analyzeTitleTitle exTitle).letterPositions.getD j 0)
          ∧ IsWitnessOf (analyzeTitleTitle exTitle).letters js
              ((['c', 'o', 'g'] : List Char).map asciiLower)
          ∧ ∀ js', IsWitnessOf (analyzeTitleTitle exTitle).letters js'
                ((['c', 'o', 'g'] : List Char).map asciiLower) →
              List.Forall₂ (· ≤ ·) js js' :=
  (claim_C1_subsequence_matcher exTitle ['c', 'o', 'g']).2.2 [0, 5, 6] (by decide)

-- ## Exact match search: shape of the candidate records

theorem exactCandidates_mem (ti : TitleInfo) (allWords : List (List Char))
    (minLength : Nat) (searchLower : List Char) (m : WordMatch)
    (hm : m ∈ exactCandidates ti allWords minLength searchLower) :
    minLength ≤ m.word.length
      ∧ ∃ idxs, findWordInTitle ti m.word = some idxs
          ∧ m.indices = idxs
          ∧ m.niceness = calculateNiceness ti m.word idxs
          ∧ m.type = .exact := by
  rcases List.mem_filterMap.mp hm with ⟨word, _, hf⟩
  split_ifs at hf with h1 h2 h3
  rcases hfw : findWordInTitle ti word with _ | idxs
  · rw [hfw] at hf; exact absurd hf (by simp)
  · rw [hfw] at hf
    have hm' : m = ⟨word, idxs, calculateNiceness ti word idxs, .exact, [], none⟩ := by
      simpa using hf.symm
    subst hm'
    refine ⟨?_, idxs, hfw, rfl, rfl, rfl⟩
    show minLength ≤ word.length
    omega

theorem findAllMatches_exact_eq (ti : TitleInfo) (allWords wordSet : List (List Char))
    (opts : SearchOptions) :
    (findAllMatches ti allWords wordSet opts).exact
      = ((exactCandidates ti allWords opts.minLength
          ((jsTrim opts.searchTerm).map asciiLower)).insertionSort MatchRel).take
          opts.maxResults := rfl

theorem findAllMatches_exact_mem (ti : TitleInfo) (allWords wordSet : List (List Char))
    (opts : SearchOptions) (m : WordMatch)
    (hm : m ∈ (findAllMatches ti allWords wordSet opts).exact) :
    m ∈ exactCandidates ti allWords opts.minLength
      ((jsTrim opts.searchTerm).map asciiLower) := by
  rw [findAllMatches_exact_eq] at hm
  have h1 := List.take_subset opts.maxResults _ hm
  exact (List.perm_insertionSort MatchRel _).mem_iff.mp h1

/-- C10: the empty word is a vacuous subsequence match (`some []`) for every
`TitleInfo`, and any `minLength ≥ 1` keeps it out of the exact results, all
of whose words are non-empty. -/
theorem claim_C10_empty_word (ti : TitleInfo) :
    findWordInTitle ti [] = some []
      ∧ ∀ (allWords wordSet : List (List Char)) (opts : SearchOptions),
          1 ≤ opts.minLength →
          ∀ m ∈ (findAllMatches ti allWords wordSet opts).exact, m.word ≠ [] := by
  constructor
  · simp [findWordInTitle, greedyScan]
  · intro allWords wordSet opts hmin m hm
    have h := exactCandidates_mem ti allWords opts.minLength
      ((jsTrim opts.searchTerm).map asciiLower) m
      (findAllMatches_exact_mem ti allWords wordSet opts m hm)
    intro hnil
    rw [hnil] at h
    simp at h
    omega

/-- Witness for C10 at the title `"Cat Dog"` and the dictionary
`["cat", "dog"]` with `minLength = 3`. -/
theorem claim_C10_witness :
    findWordInTitle (analyzeTitleTitle exTitle) [] = some []
      ∧ (⟨['c', 'a', 't'], [0, 1, 2], 73, .exact, [], none⟩ : WordMatch).word ≠ [] :=
  ⟨(claim_C10_empty_word (analyzeTitleTitle exTitle)).1,
    (claim_C10_empty_word (analyzeTitleTitle exTitle)).2 exDict (buildWordSet exDict)
      ⟨3, 10, [], true⟩ (by decide) _ (by decide)⟩

-- ## Niceness scorer: index recovery and the specification formula

theorem jsIndexOf_getD : ∀ (pos : List Nat), pos.Nodup → ∀ j, j < pos.length →
    jsIndexOf pos (pos.getD j 0) = some j := by
  intro pos
  induction pos with
  | nil => intro _ j hj; simp at hj
  | cons y ys ih =>
    intro hnd j hj
    match j with
    | 0 => simp [jsIndexOf]
    | j + 1 =>
      have hjl : j < ys.length := by simpa using hj
      have hmem : ys.getD j 0 ∈ ys := by
        rw [List.getD_eq_getElem ys 0 hjl]
        exact List.getElem_mem hjl
      have hy : ¬ y = ys.getD j 0 := by
        intro he
        exact (List.nodup_cons.mp hnd).1 (he ▸ hmem)
      simp only [List.getD_cons_succ, jsIndexOf, if_neg hy]
      rw [ih (List.nodup_cons.mp hnd).2 j hjl]
      rfl

theorem letterIndicesOf_recover (ti : TitleInfo) (hnd : ti.letterPositions.Nodup) :
    ∀ js, (∀ j ∈ js, j < ti.letterPositions.length) →
    letterIndicesOf ti (js.map fun j => ti.letterPositions.getD j 0) = js := by
  intro js hb
  unfold letterIndicesOf
  rw [List.filterMap_map]
  induction js with
  | nil => rfl
  | cons j rest ih =>
    have hj := hb j (by simp)
    simp only [List.filterMap_cons, Function.comp]
    rw [jsIndexOf_getD ti.letterPositions hnd j hj]
    rw [ih (fun x hx => hb x (by simp [hx]))]

theorem analyze_letterPositions_nodup (t : List Char) :
    (analyzeTitleTitle t).letterPositions.Nodup :=
  (analyze_letterPositions_pairwise t).imp fun h => Nat.ne_of_lt h

theorem commonPrefixLen_nil_right (wl : List Char) : commonPrefixLen wl [] = 0 := by
  cases wl <;> rfl

/-- C2: on an analyzer-produced title with at least one word, a non-empty
candidate and the indices of a successful match, `calculateNiceness` equals
the specification formula `specNiceness` evaluated at the matched letter
positions of the greedy scan. -/
theorem claim_C2_niceness_formula (t word : List Char) (idxs : List Nat)
    (hwords : (analyzeTitleTitle t).words ≠ [])
    (hword : word ≠ [])
    (hfind : findWordInTitle (analyzeTitleTitle t) word = some idxs) :
    ∃ js, greedyScan (analyzeTitleTitle t).letters 0 (word.map asciiLower) = some js
      ∧ idxs = js.map (fun j => (analyzeTitleTitle t).letterPositions.getD j 0)
      ∧ calculateNiceness (analyzeTitleTitle t) word idxs
          = specNiceness (analyzeTitleTitle t) word js := by
  by_cases hg : (analyzeTitleTitle t).letters.length < word.length
  · rw [show findWordInTitle (analyzeTitleTitle t) word = none from by
      simp [findWordInTitle, hg]] at hfind
    cases hfind
  · unfold findWordInTitle at hfind
    rw [if_neg (by simpa using hg)] at hfind
    rcases Option.map_eq_some'.mp hfind with ⟨js, hjs, rfl⟩
    refine ⟨js, hjs, rfl, ?_⟩
    have hbounds := greedyScan_bounds (analyzeTitleTitle t).letters (word.map asciiLower) 0 js hjs
    have hLI : letterIndicesOf (analyzeTitleTitle t)
        (js.map fun j => (analyzeTitleTitle t).letterPositions.getD j 0) = js := by
      refine letterIndicesOf_recover (analyzeTitleTitle t)
        (analyze_letterPositions_nodup t) js ?_
      intro j hj
      rw [analyze_length_eq t]
      exact (hbounds j hj).2
    have h2 : nicenessCoverageTerm (analyzeTitleTitle t) js
        = ((wordsUsed (analyzeTitleTitle t).words js).length : ℚ)
            / ((analyzeTitleTitle t).words.length : ℚ) * 40 := by
      unfold nicenessCoverageTerm
      rw [if_pos (List.length_pos.mpr hwords)]
    have h3 : nicenessStartTerm (analyzeTitleTitle t) word js
        = startLetterScore (analyzeTitleTitle t).words js / (word.length : ℚ) * 30 := by
      unfold nicenessStartTerm
      have hl := List.length_pos.mpr hword
      rw [show max word.length 1 = word.length from by omega]
    have h4 : nicenessInitialsTerm (analyzeTitleTitle t) word
        = (if 0 < commonPrefixLen (word.map asciiLower) (analyzeTitleTitle t).initials
            then (commonPrefixLen (word.map asciiLower) (analyzeTitleTitle t).initials : ℚ)
              / ((analyzeTitleTitle t).initials.length : ℚ) * 20
            else 0) := by
      unfold nicenessInitialsTerm
      by_cases hk : 0 < commonPrefixLen (word.map asciiLower) (analyzeTitleTitle t).initials
      · have hinit : (analyzeTitleTitle t).initials ≠ [] := by
          intro he
          rw [he, commonPrefixLen_nil_right] at hk
          omega
        have hil : 0 < (analyzeTitleTitle t).initials.length := List.length_pos.mpr hinit
        simp [hk, hil]
      · simp [hk]
    simp only [calculateNiceness, specNiceness]
    rw [hLI]
    rw [h2, h3, h4]
    rfl

/-- Witness for C2: the word `"cog"` in the title `"Cat Dog"`. -/
theorem claim_C2_witness :
    ∃ js, greedyScan (analyzeTitleTitle exTitle).letters 0
        ((['c', 'o', 'g'] : List Char).map asciiLower) = some js
      ∧ ([0, 5, 6] : List Nat)
          = js.map (fun j => (analyzeTitleTitle exTitle).letterPositions.getD j 0)
      ∧ calculateNiceness (analyzeTitleTitle exTitle) ['c', 'o', 'g'] [0, 5, 6]
          = specNiceness (analyzeTitleTitle exTitle) ['c', 'o', 'g'] js :=
  claim_C2_niceness_formula exTitle ['c', 'o', 'g'] [0, 5, 6]
    (by decide) (by decide) (by decide)

-- ## C7: division guards in the scorer

/-- C7 counterexample: the claim asserts that a zero-length candidate makes
the start-letter term contribute exactly 0 on every input; with title
`"ab"`, the empty word and the index list `[0]` the score would then be
`25 + 40 = 65`, but `calculateNiceness` returns `95` (the start-letter pass
still walks the supplied indices). -/
theorem claim_C7_counterexample :
    calculateNiceness (analyzeTitleTitle ['a', 'b']) [] [0] = 95
      ∧ calculateNiceness (analyzeTitleTitle ['a', 'b']) [] [0] ≠ 65 := by
  exact ⟨by decide, by decide⟩

/-- C7 (amended): `calculateNiceness` is the rounded sum of its five guarded
terms; an empty `words` list zeroes the first-letter and coverage terms, a
zero-length word zeroes the length term, a zero-length word together with an
empty index list (as produced by the matcher for the empty word) zeroes the
start-letter term, and empty initials zero the initials term — every guarded
division degrades to a zero contribution instead of a division by zero. -/
theorem claim_C7_niceness_guards (ti : TitleInfo) (word : List Char) (indices : List Nat) :
    calculateNiceness ti word indices
      = round2 (nicenessFirstTerm ti (letterIndicesOf ti indices)
          + nicenessCoverageTerm ti (letterIndicesOf ti indices)
          + nicenessStartTerm ti word (letterIndicesOf ti indices)
          + nicenessInitialsTerm ti word
          + nicenessLengthTerm word)
      ∧ (ti.words = [] → nicenessFirstTerm ti (letterIndicesOf ti indices) = 0
          ∧ nicenessCoverageTerm ti (letterIndicesOf ti indices) = 0)
      ∧ (word = [] → nicenessLengthTerm word = 0)
      ∧ (word = [] → indices = [] →
          nicenessStartTerm ti word (letterIndicesOf ti indices) = 0)
      ∧ (ti.initials = [] → nicenessInitialsTerm ti word = 0) := by
  refine ⟨rfl, ?_, ?_, ?_, ?_⟩
  · intro he
    constructor
    · unfold nicenessFirstTerm
      rw [he]
    · unfold nicenessCoverageTerm
      rw [he]
      simp
  · intro he
    subst he
    unfold nicenessLengthTerm
    norm_num
  · intro he hi
    subst he
    subst hi
    unfold nicenessStartTerm startLetterScore letterIndicesOf
    simp
  · intro he
    unfold nicenessInitialsTerm
    rw [he]
    simp [commonPrefixLen_nil_right]

/-- Witness for C7 at the empty title and empty word. -/
theorem claim_C7_witness :
    nicenessCoverageTerm (analyzeTitleTitle []) (letterIndicesOf (analyzeTitleTitle []) []) = 0
      ∧ nicenessLengthTerm ([] : List Char) = 0
      ∧ nicenessStartTerm (analyzeTitleTitle []) []
          (letterIndicesOf (analyzeTitleTitle []) []) = 0
      ∧ nicenessInitialsTerm (analyzeTitleTitle []) [] = 0 :=
  ⟨((claim_C7_niceness_guards (analyzeTitleTitle []) [] []).2.1 (by decide)).2,
    (claim_C7_niceness_guards (analyzeTitleTitle []) [] []).2.2.1 rfl,
    (claim_C7_niceness_guards (analyzeTitleTitle []) [] []).2.2.2.1 rfl rfl,
    (claim_C7_niceness_guards (analyzeTitleTitle []) [] []).2.2.2.2 (by decide)⟩

-- ## Sorting: properties of the comparator and the exact result list

theorem lexLE_nil_left (b : List Char) : lexLE [] b = true := rfl

theorem lexLE_total : ∀ a b : List Char, lexLE a b = true ∨ lexLE b a = true := by
  intro a
  induction a with
  | nil => intro b; left; rfl
  | cons x xs ih =>
    intro b
    cases b with
    | nil => right; rfl
    | cons y ys =>
      by_cases h : x = y
      · subst h
        simp only [lexLE, if_pos rfl]
        exact ih ys
      · rcases lt_trichotomy x y with hlt | heq | hgt
        · left; simp [lexLE, h, hlt]
        · exact absurd heq h
        · right
          have hyx : ¬ y = x := fun he => h he.symm
          simp [lexLE, hyx, hgt]

theorem lexLE_trans : ∀ a b c : List Char,
    lexLE a b = true → lexLE b c = true → lexLE a c = true := by
  intro a
  induction a with
  | nil => intro b c _ _; rfl
  | cons x xs ih =>
    intro b c hab hbc
    cases b with
    | nil => simp [lexLE] at hab
    | cons y ys =>
      cases c with
      | nil => simp [lexLE] at hbc
      | cons z zs =>
        by_cases hxy : x = y
        · subst hxy
          by_cases hyz : x = z
          · subst hyz
            simp only [lexLE, if_pos rfl] at hab hbc ⊢
            exact ih ys zs hab hbc
          · simp only [lexLE, if_neg hyz] at hbc ⊢
            exact hbc
        · have hxy' : x < y := by simpa [lexLE, hxy] using hab
          by_cases hyz : y = z
          · subst hyz
            simp [lexLE, hxy, hxy']
          · have hyz' : y < z := by simpa [lexLE, hyz] using hbc
            have hxz : x < z := lt_trans hxy' hyz'
            simp [lexLE, ne_of_lt hxz, hxz]

theorem matchLE_iff (a b : WordMatch) :
    matchLE a b = true ↔
      (b.niceness < a.niceness
        ∨ (a.niceness = b.niceness ∧ (b.word.length < a.word.length
            ∨ (a.word.length = b.word.length ∧ lexLE a.word b.word = true)))) := by
  unfold matchLE
  by_cases h1 : a.niceness = b.niceness
  · by_cases h2 : a.word.length = b.word.length
    · simp [h1, h2, lt_irrefl]
    · simp [h1, h2, lt_irrefl]
  · simp [h1]

instance : IsTotal WordMatch MatchRel := by
  constructor
  intro a b
  unfold MatchRel
  rw [matchLE_iff, matchLE_iff]
  rcases lt_trichotomy a.niceness b.niceness with h | h | h
  · right; left; exact h
  · rcases lt_trichotomy a.word.length b.word.length with hl | hl | hl
    · right; right; exact ⟨h.symm, Or.inl hl⟩
    · rcases lexLE_total a.word b.word with hx | hx
      · left; right; exact ⟨h, Or.inr ⟨hl, hx⟩⟩
      · right; right; exact ⟨h.symm, Or.inr ⟨hl.symm, hx⟩⟩
    · left; right; exact ⟨h, Or.inl hl⟩
  · left; left; exact h

instance : IsTrans WordMatch MatchRel := by
  constructor
  intro a b c hab hbc
  unfold MatchRel at hab hbc ⊢
  rw [matchLE_iff] at hab hbc ⊢
  rcases hab with hab | ⟨habn, hab⟩
  · rcases hbc with hbc | ⟨hbcn, _⟩
    · exact Or.inl (lt_trans hbc hab)
    · exact Or.inl (hbcn ▸ hab)
  · rcases hbc with hbc | ⟨hbcn, hbc⟩
    · exact Or.inl (habn ▸ hbc)
    · refine Or.inr ⟨habn.trans hbcn, ?_⟩
      rcases hab with hab | ⟨habl, hab⟩
      · rcases hbc with hbc | ⟨hbcl, _⟩
        · exact Or.inl (lt_trans hbc hab)
        · exact Or.inl (hbcl ▸ hab)
      · rcases hbc with hbc | ⟨hbcl, hbc⟩
        · exact Or.inl (habl ▸ hbc)
        · exact Or.inr ⟨habl.trans hbcl, lexLE_trans a.word b.word c.word hab hbc⟩

/-- C3: the exact list is the comparator-sorted candidate list truncated to
`maxResults`; pairwise along it, niceness strictly decreases, or niceness
ties and length strictly decreases, or both tie and the words are in
lexicographic order — so the relative order of equal-niceness equal-length
results is fixed by the word strings alone. -/
theorem claim_C3_exact_sorting (ti : TitleInfo) (allWords wordSet : List (List Char))
    (opts : SearchOptions) :
    (findAllMatches ti allWords wordSet opts).exact
      = ((exactCandidates ti allWords opts.minLength
          ((jsTrim opts.searchTerm).map asciiLower)).insertionSort MatchRel).take
          opts.maxResults
      ∧ (findAllMatches ti allWords wordSet opts).exact.length ≤ opts.maxResults
      ∧ (findAllMatches ti allWords wordSet opts).exact.Pairwise (fun a b =>
          b.niceness < a.niceness
          ∨ (a.niceness = b.niceness ∧ (b.word.length < a.word.length
              ∨ (a.word.length = b.word.length ∧ lexLE a.word b.word = true)))) := by
  refine ⟨rfl, ?_, ?_⟩
  · rw [findAllMatches_exact_eq]
    simp [List.length_take_le]
  · have hs : ((exactCandidates ti allWords opts.minLength
        ((jsTrim opts.searchTerm).map asciiLower)).insertionSort MatchRel).Pairwise MatchRel :=
      List.sorted_insertionSort MatchRel _
    have ht : (findAllMatches ti allWords wordSet opts).exact.Pairwise MatchRel := by
      rw [findAllMatches_exact_eq]
      exact List.Pairwise.sublist (List.take_sublist _ _) hs
    exact ht.imp fun h => (matchLE_iff _ _).mp h

-- ## Compound synthesizer: every produced compound is fabricated

theorem genLoop_mem (ti : TitleInfo) (wordSet : List (List Char)) (searchLower : List Char)
    (minWordLength maxCandidates : Nat) :
    ∀ (pairs : List (WordMatch × WordMatch)) (seen : List (List Char)) (count : Nat)
      (m : WordMatch),
      m ∈ genLoop ti wordSet searchLower minWordLength maxCandidates pairs seen count →
      m.word ∉ wordSet
        ∧ m.type = .compound
        ∧ ∃ idxs, findWordInTitle ti m.word = some idxs
            ∧ m.indices = idxs
            ∧ m.niceness = round2 (calculateNiceness ti m.word idxs * (9 / 10)) := by
  intro pairs
  induction pairs with
  | nil => intro seen count m hm; simp [genLoop] at hm
  | cons pr rest ih =>
    intro seen count m hm
    rcases pr with ⟨first, second⟩
    simp only [genLoop] at hm
    split_ifs at hm with hc h1 h2 h3 h4 h5
    · simp at hm
    · exact ih seen count m hm
    · exact ih seen count m hm
    · exact ih seen count m hm
    · exact ih seen count m hm
    · exact ih seen count m hm
    · rcases hfw : findWordInTitle ti (first.word ++ second.word) with _ | idxs
      · rw [hfw] at hm
        exact ih seen count m hm
      · rw [hfw] at hm
        rcases List.mem_cons.mp hm with rfl | hm'
        · exact ⟨h4, rfl, idxs, hfw, rfl, rfl⟩
        · exact ih _ _ m hm'

theorem generateCompoundMatches_mem (ti : TitleInfo) (exactMatches : List WordMatch)
    (wordSet : List (List Char)) (searchLower : List Char)
    (minWordLength maxResults minComponentLength componentPoolSize : Nat) (m : WordMatch)
    (hm : m ∈ generateCompoundMatches ti exactMatches wordSet searchLower
      minWordLength maxResults minComponentLength componentPoolSize) :
    m.word ∉ wordSet
      ∧ m.type = .compound
      ∧ ∃ idxs, findWordInTitle ti m.word = some idxs
          ∧ m.indices = idxs
          ∧ m.niceness = round2 (calculateNiceness ti m.word idxs * (9 / 10)) := by
  unfold generateCompoundMatches at hm
  split_ifs at hm with h1
  · simp at hm
  · by_cases h2 : (exactMatches.filter
        fun m => decide (minComponentLength ≤ m.word.length)).length < 2
    · rw [if_pos h2] at hm
      simp at hm
    · rw [if_neg h2] at hm
      have hm1 := List.take_subset maxResults _ hm
      have hm2 := (List.perm_insertionSort MatchRel _).mem_iff.mp hm1
      exact genLoop_mem ti wordSet searchLower minWordLength _ _ _ _ m hm2

theorem findAllMatches_compound_eq (ti : TitleInfo) (allWords wordSet : List (List Char))
    (opts : SearchOptions) :
    (findAllMatches ti allWords wordSet opts).compound
      = (if opts.includeCompounds then
          (generateCompoundMatches ti
            (exactCandidates ti allWords opts.minLength
              ((jsTrim opts.searchTerm).map asciiLower))
            wordSet ((jsTrim opts.searchTerm).map asciiLower)
            opts.minLength (max 1 (opts.maxResults / 2)) (max 2 (min 4 opts.minLength))
            80).filter
            (fun c => !((((exactCandidates ti allWords opts.minLength
                ((jsTrim opts.searchTerm).map asciiLower)).insertionSort
                MatchRel).take opts.maxResults).map fun m => m.word).contains c.word)
        else []) := rfl

theorem findAllMatches_compound_mem (ti : TitleInfo) (allWords wordSet : List (List Char))
    (opts : SearchOptions) (m : WordMatch)
    (hm : m ∈ (findAllMatches ti allWords wordSet opts).compound) :
    m ∈ generateCompoundMatches ti
      (exactCandidates ti allWords opts.minLength ((jsTrim opts.searchTerm).map asciiLower))
      wordSet ((jsTrim opts.searchTerm).map asciiLower)
      opts.minLength (max 1 (opts.maxResults / 2)) (max 2 (min 4 opts.minLength)) 80 := by
  rw [findAllMatches_compound_eq] at hm
  by_cases hi : opts.includeCompounds
  · rw [if_pos hi] at hm
    exact (List.mem_filter.mp hm).1
  · rw [if_neg hi] at hm
    simp at hm

/-- C4: every compound match returned by the search has a word that is not a
member of the supplied dictionary membership set. -/
theorem claim_C4_compound_fabricated (ti : TitleInfo) (allWords wordSet : List (List Char))
    (opts : SearchOptions) (m : WordMatch)
    (hm : m ∈ (findAllMatches ti allWords wordSet opts).compound) :
    m.word ∉ wordSet ∧ m.type = .compound := by
  have h := generateCompoundMatches_mem ti _ wordSet _ _ _ _ _ m
    (findAllMatches_compound_mem ti allWords wordSet opts m hm)
  exact ⟨h.1, h.2.1⟩

/-- Witness for C4: the compound `"catdog"` built from `"cat"` and `"dog"`
on the title `"Cat Dog"` is not in the dictionary `["cat", "dog"]`. -/
theorem claim_C4_witness :
    (⟨['c', 'a', 't', 'd', 'o', 'g'], [0, 1, 2, 4, 5, 6], (432 : ℚ) / 5, .compound,
        [['c', 'a', 't'], ['d', 'o', 'g']], none⟩ : WordMatch).word ∉ buildWordSet exDict
      ∧ (⟨['c', 'a', 't', 'd', 'o', 'g'], [0, 1, 2, 4, 5, 6], (432 : ℚ) / 5, .compound,
          [['c', 'a', 't'], ['d', 'o', 'g']], none⟩ : WordMatch).type = .compound :=
  claim_C4_compound_fabricated (analyzeTitleTitle exTitle) exDict (buildWordSet exDict)
    ⟨3, 10, [], true⟩ _ (by decide)

/-- C5: every compound match returned by the search is scored as
`calculateNiceness` of the combined word at its matched indices, times the
0.9 fabrication penalty, rounded to 2 decimals. -/
theorem claim_C5_compound_niceness (ti : TitleInfo) (allWords wordSet : List (List Char))
    (opts : SearchOptions) (m : WordMatch)
    (hm : m ∈ (findAllMatches ti allWords wordSet opts).compound) :
    ∃ idxs, findWordInTitle ti m.word = some idxs
      ∧ m.indices = idxs
      ∧ m.niceness = round2 (calculateNiceness ti m.word idxs * (9 / 10)) := by
  exact (generateCompoundMatches_mem ti _ wordSet _ _ _ _ _ m
    (findAllMatches_compound_mem ti allWords wordSet opts m hm)).2.2

/-- Witness for C5: the compound `"catdog"` on the title `"Cat Dog"` carries
niceness `round2(96 × 0.9) = 86.4`. -/
theorem claim_C5_witness :
    ∃ idxs, findWordInTitle (analyzeTitleTitle exTitle) ['c', 'a', 't', 'd', 'o', 'g']
        = some idxs
      ∧ ([0, 1, 2, 4, 5, 6] : List Nat) = idxs
      ∧ ((432 : ℚ) / 5)
          = round2 (calculateNiceness (analyzeTitleTitle exTitle)
              ['c', 'a', 't', 'd', 'o', 'g'] idxs * (9 / 10)) :=
  claim_C5_compound_niceness (analyzeTitleTitle exTitle) exDict (buildWordSet exDict)
    ⟨3, 10, [], true⟩
    ⟨['c', 'a', 't', 'd', 'o', 'g'], [0, 1, 2, 4, 5, 6], (432 : ℚ) / 5, .compound,
      [['c', 'a', 't'], ['d', 'o', 'g']], none⟩ (by decide)

-- ## Near-match search: edit-distance window and exclusivity

theorem nearLoop_mem (ti : TitleInfo) (initials : List Char)
    (maxEditDistance cap minLen maxLen : Nat) :
    ∀ (ws : List (List Char)) (count : Nat) (m : WordMatch),
      m ∈ nearLoop ti initials maxEditDistance cap minLen maxLen ws count →
      ∃ d, m.editDistance = some d
        ∧ 0 < d ∧ d ≤ maxEditDistance
        ∧ d = editDistance (m.word.map asciiLower) initials
        ∧ findWordInTitle ti m.word = none
        ∧ m.type = .near := by
  intro ws
  induction ws with
  | nil => intro count m hm; simp [nearLoop] at hm
  | cons word rest ih =>
    intro count m hm
    simp only [nearLoop] at hm
    split at hm
    · exact ih count m hm
    · split at hm
      · split at hm
        · exact ih count m hm
        · split at hm
          · rename_i h1n h2 x heq hcap
            have hmm := List.mem_singleton.mp hm
            subst hmm
            rcases (by simpa using h2 :
                0 < editDistance (word.map asciiLower) initials
                  ∧ editDistance (word.map asciiLower) initials ≤ maxEditDistance)
              with ⟨ha, hb⟩
            exact ⟨editDistance (word.map asciiLower) initials, rfl, ha, hb, rfl, heq, rfl⟩
          · rename_i h1n h2 x heq hcap
            rcases List.mem_cons.mp hm with rfl | hm'
            · rcases (by simpa using h2 :
                  0 < editDistance (word.map asciiLower) initials
                    ∧ editDistance (word.map asciiLower) initials ≤ maxEditDistance)
                with ⟨ha, hb⟩
              exact ⟨editDistance (word.map asciiLower) initials, rfl, ha, hb, rfl, heq, rfl⟩
            · exact ih (count + 1) m hm'
      · exact ih count m hm

theorem findNearMatches_mem (ti : TitleInfo) (allWords : List (List Char))
    (maxEditDistance maxResults : Nat) (m : WordMatch)
    (hm : m ∈ findNearMatches ti allWords maxEditDistance maxResults) :
    ∃ d, m.editDistance = some d
      ∧ 0 < d ∧ d ≤ maxEditDistance
      ∧ d = editDistance (m.word.map asciiLower) (ti.initials.map asciiLower)
      ∧ findWordInTitle ti m.word = none
      ∧ m.type = .near := by
  simp only [findNearMatches] at hm
  split at hm
  · simp at hm
  · have hm1 := List.take_subset maxResults _ hm
    have hm2 := (List.perm_insertionSort NearRel _).mem_iff.mp hm1
    exact nearLoop_mem ti _ maxEditDistance _ _ _ _ _ m hm2

/-- C6: every near match carries an edit distance to the lowercased initials
that is at least 1 and at most `maxEditDistance`, its word is not a
subsequence match of the title, and consequently its word never coincides
with the word of any exact match of the same title. -/
theorem claim_C6_near_match_exclusivity (ti : TitleInfo) (allWords : List (List Char))
    (maxEditDistance maxResults : Nat) (m : WordMatch)
    (hm : m ∈ findNearMatches ti allWords maxEditDistance maxResults) :
    ∃ d, m.editDistance = some d
      ∧ 1 ≤ d ∧ d ≤ maxEditDistance
      ∧ d = editDistance (m.word.map asciiLower) (ti.initials.map asciiLower)
      ∧ findWordInTitle ti m.word = none
      ∧ m.type = .near
      ∧ ∀ (allWords' wordSet : List (List Char)) (opts : SearchOptions),
          ∀ e ∈ (findAllMatches ti allWords' wordSet opts).exact, e.word ≠ m.word := by
  rcases findNearMatches_mem ti allWords maxEditDistance maxResults m hm with
    ⟨d, hd, hpos, hle, hdist, hnone, htype⟩
  refine ⟨d, hd, hpos, hle, hdist, hnone, htype, ?_⟩
  intro allWords' wordSet opts e he hew
  rcases (exactCandidates_mem ti allWords' opts.minLength _ e
    (findAllMatches_exact_mem ti allWords' wordSet opts e he)).2 with ⟨idxs, hfe, _⟩
  rw [hew, hnone] at hfe
  cases hfe

/-- Witness for C6: on the title `"Cat Dog"` (initials `"cd"`), the word
`"ce"` is a near match at edit distance 1. -/
theorem claim_C6_witness :
    ∃ d, (⟨['c', 'e'], [0], (4333 : ℚ) / 100, .near, [], some 1⟩ : WordMatch).editDistance
          = some d
      ∧ 1 ≤ d ∧ d ≤ 2
      ∧ d = editDistance ((['c', 'e'] : List Char).map asciiLower)
          ((analyzeTitleTitle exTitle).initials.map asciiLower)
      ∧ findWordInTitle (analyzeTitleTitle exTitle) ['c', 'e'] = none
      ∧ (⟨['c', 'e'], [0], (4333 : ℚ) / 100, .near, [], some 1⟩ : WordMatch).type = .near
      ∧ ∀ (allWords' wordSet : List (List Char)) (opts : SearchOptions),
          ∀ e ∈ (findAllMatches (analyzeTitleTitle exTitle) allWords' wordSet opts).exact,
            e.word ≠ (⟨['c', 'e'], [0], (4333 : ℚ) / 100, .near, [], some 1⟩ : WordMatch).word :=
  claim_C6_near_match_exclusivity (analyzeTitleTitle exTitle) exDictNear 2 10 _ (by decide)
